import Mathlib

/-!
Verification of the label-list editor controller
(`src/app/frontend/deploy/deploylabel_controller.js`).

The controller's validation logic is built on JavaScript regular
expressions.  We embed those regexes as terms of a small regular
expression language over `Char` (character classes given by ranges,
concatenation, alternation, Kleene star), give the language an
inductive matching semantics `RMatches`, and implement matching
executably with Brzozowski derivatives (`rmatch`), proved equivalent
to the semantics.  A JavaScript `RegExp.test` with a `^...$`-anchored
pattern is whole-string matching; an unanchored `.` does not match the
line terminators `\n`, `\r`, `U+2028`, `U+2029` (no `s` flag is used
in the source).  JavaScript strings are modelled as Lean `String`
(sequences of scalar values).
-/

/-- A regex character class: a list of inclusive character ranges,
optionally negated (`[^...]`, and the dot `.` which is the negation of
the line-terminator set). -/
structure CClass where
  neg : Bool
  ranges : List (Char × Char)
deriving DecidableEq

/-- Membership test of a character in a character class. -/
def CClass.test (k : CClass) (c : Char) : Bool :=
  (k.ranges.any fun p => decide (p.1 ≤ c) && decide (c ≤ p.2)) != k.neg

/-- Regular expressions over characters, with character classes as atoms. -/
inductive Regex where
  | emp : Regex
  | eps : Regex
  | chr : CClass → Regex
  | cat : Regex → Regex → Regex
  | alt : Regex → Regex → Regex
  | star : Regex → Regex
deriving DecidableEq

/-- Matching semantics of regular expressions. -/
inductive RMatches : Regex → List Char → Prop where
  | eps : RMatches .eps []
  | chr {k : CClass} {c : Char} : k.test c = true → RMatches (.chr k) [c]
  | cat {a b : Regex} {s t : List Char} :
      RMatches a s → RMatches b t → RMatches (.cat a b) (s ++ t)
  | altL {a b : Regex} {s : List Char} : RMatches a s → RMatches (.alt a b) s
  | altR {a b : Regex} {s : List Char} : RMatches b s → RMatches (.alt a b) s
  | starNil {a : Regex} : RMatches (.star a) []
  | starCons {a : Regex} {s t : List Char} :
      RMatches a s → RMatches (.star a) t → RMatches (.star a) (s ++ t)

/-- Does the regex accept the empty string? -/
def nullable : Regex → Bool
  | .emp => false
  | .eps => true
  | .chr _ => false
  | .cat a b => nullable a && nullable b
  | .alt a b => nullable a || nullable b
  | .star _ => true

/-- Smart concatenation, simplifying the `emp` and `eps` units. -/
def rcat : Regex → Regex → Regex
  | .emp, _ => .emp
  | _, .emp => .emp
  | .eps, b => b
  | a, .eps => a
  | a, b => .cat a b

/-- Smart alternation, simplifying the `emp` unit. -/
def ralt : Regex → Regex → Regex
  | .emp, b => b
  | a, .emp => a
  | a, b => .alt a b

/-- Brzozowski derivative of a regex by one character. -/
def rderiv (r : Regex) (c : Char) : Regex :=
  match r with
  | .emp => .emp
  | .eps => .emp
  | .chr k => if k.test c then .eps else .emp
  | .cat a b =>
      if nullable a then ralt (rcat (rderiv a c) b) (rderiv b c)
      else rcat (rderiv a c) b
  | .alt a b => ralt (rderiv a c) (rderiv b c)
  | .star a => rcat (rderiv a c) (.star a)

/-- Executable whole-string regex matching by iterated derivatives. -/
def rmatch (r : Regex) (s : List Char) : Bool :=
  nullable (s.foldl rderiv r)

/-!
Character classes appearing in the controller's regex literals.
-/

/-- Line terminators not matched by an unflagged JavaScript `.`. -/
def isLineTermB (c : Char) : Bool :=
  c == '\n' || c == '\r' || c == ' ' || c == ' '

/-- The JavaScript dot `.` (no `s` flag): any character except a line
terminator. -/
def dotC : CClass :=
  { neg := true,
    ranges := [('\n', '\n'), ('\r', '\r'), (' ', ' '), (' ', ' ')] }

/-- The literal `\/`. -/
def slashC : CClass := { neg := false, ranges := [('/', '/')] }

/-- The class `[a-z0-9]`. -/
def lowAlnumC : CClass := { neg := false, ranges := [('a', 'z'), ('0', '9')] }

/-- The class `[-a-z0-9]`. -/
def lowMidC : CClass := { neg := false, ranges := [('-', '-'), ('a', 'z'), ('0', '9')] }

/-- The class `[A-Za-z0-9]`. -/
def alnumC : CClass :=
  { neg := false, ranges := [('A', 'Z'), ('a', 'z'), ('0', '9')] }

/-- The class `[-A-Za-z0-9_.]`. -/
def nameMidC : CClass :=
  { neg := false,
    ranges := [('-', '-'), ('A', 'Z'), ('a', 'z'), ('0', '9'), ('_', '_'), ('.', '.')] }

/-- The literal `\.`. -/
def dotLitC : CClass := { neg := false, ranges := [('.', '.')] }

/-- The pattern `/^(.*\/.*)$/` used by `validateKey_` to decide whether a
key is prefixed. -/
def reSlashTest : Regex :=
  .cat (.star (.chr dotC)) (.cat (.chr slashC) (.star (.chr dotC)))

/-- One DNS segment `[a-z0-9]([-a-z0-9]*[a-z0-9])?` of the key prefix
pattern. -/
def reDnsSeg : Regex :=
  .cat (.chr lowAlnumC) (.alt .eps (.cat (.star (.chr lowMidC)) (.chr lowAlnumC)))

/-- The pattern `/^[a-z0-9]([-a-z0-9]*[a-z0-9])?(\.[a-z0-9]([-a-z0-9]*[a-z0-9])?)*$/`
of `matchesKeyPrefixPattern_`. -/
def reDns : Regex := .cat reDnsSeg (.star (.cat (.chr dotLitC) reDnsSeg))

/-- The pattern `/^([A-Za-z0-9][-A-Za-z0-9_.]*)?[A-Za-z0-9]$/` of
`matchesKeyNamePattern_`. -/
def reNameK : Regex :=
  .cat (.alt .eps (.cat (.chr alnumC) (.star (.chr nameMidC)))) (.chr alnumC)

/-- Alphanumeric character of either case, as in `[A-Za-z0-9]`. -/
def isAlnumB (c : Char) : Bool :=
  decide (('A' ≤ c ∧ c ≤ 'Z') ∨ ('a' ≤ c ∧ c ≤ 'z') ∨ ('0' ≤ c ∧ c ≤ '9'))

/-- Character allowed in the middle of a label key name:
alphanumerics, '-', '_' and '.'. -/
def isNameMidB (c : Char) : Bool :=
  decide (c = '-' ∨ ('A' ≤ c ∧ c ≤ 'Z') ∨ ('a' ≤ c ∧ c ≤ 'z') ∨
    ('0' ≤ c ∧ c ≤ '9') ∨ c = '_' ∨ c = '.')

/-!
The label controller (`DeployLabelController`).  The controller object's
`this.labels` and `this.label` fields become explicit arguments; methods
that mutate `this.labels` return the new list.  A JavaScript run-time
exception (the only possible one: reading `.key` of `undefined` when the
list is empty) is modelled by `Option`, `none` meaning the call throws.
-/

/-- A label entry.  The controller reads `label.key`, `label.value()` and
`label.editable`; the value accessor is modelled by the string it returns.
`ref` models JavaScript object reference identity: the strict equality
`===` used by `isRemovable` and `indexOf` compares `ref` fields, and
distinct live objects carry distinct refs. -/
structure DeployLabel where
  ref : Nat
  key : String
  value : String
  editable : Bool
deriving DecidableEq

/-- Modelled from the spec: `new DeployLabel()` — the constructor lives in
`deploylabel.js`, which is not among the sources.  Per the spec it builds
a blank entry with key = "", value = "" and editable = true; the fresh
`ref` models allocation of a new object. -/
def newDeployLabel (r : Nat) : DeployLabel :=
  { ref := r, key := "", value := "", editable := true }

/-- Reference identity `===` between label objects. -/
def sameRef (a b : DeployLabel) : Bool := a.ref == b.ref

/-- A reference distinct from every ref in the list, for a fresh
allocation. -/
def freshRef (labels : List DeployLabel) : Nat :=
  (labels.map (fun l => l.ref)).foldr max 0 + 1

/-- isFilled_: `label.key.length !== 0 && label.value().length !== 0`. -/
def isFilled_ (label : DeployLabel) : Bool :=
  label.key.length != 0 && label.value.length != 0

/-- addNewLabel_: `this.labels.push(new DeployLabel())`. -/
def addNewLabel_ (labels : List DeployLabel) : List DeployLabel :=
  labels ++ [newDeployLabel (freshRef labels)]

/-- addIfNeeded_: reads `this.labels[this.labels.length - 1]` and appends a
new label when it is filled.  On an empty list the indexing yields
`undefined` and `isFilled_` throws a TypeError reading `undefined.key`;
that exception is the `none` branch. -/
def addIfNeeded_ (labels : List DeployLabel) : Option (List DeployLabel) :=
  match labels.getLast? with
  | none => none
  | some lastLabel =>
      if isFilled_ lastLabel then some (addNewLabel_ labels) else some labels

/-- isKeyDuplicated_: counts the labels whose key strictly equals the
current label's key (only when the current key is non-empty) and reports
more than one occurrence. -/
def isKeyDuplicated_ (labels : List DeployLabel) (label : DeployLabel) : Bool :=
  decide (1 < labels.foldl
    (fun duplications l =>
      if label.key.length != 0 && l.key == label.key
      then duplications + 1 else duplications) 0)

/-- JavaScript `key.indexOf("/")`: index of the first "/" or -1. -/
def jsIndexOfSlash (key : String) : Int :=
  match key.data.findIdx? (fun c => c == '/') with
  | some i => (i : Int)
  | none => -1

/-- JavaScript `String.prototype.substring(a, b)`: both arguments are
clamped into [0, length] and swapped if out of order. -/
def jsSubstring (s : String) (a b : Int) : String :=
  let n : Int := (s.length : Int)
  let a2 := min (max a 0) n
  let b2 := min (max b 0) n
  let lo := min a2 b2
  let hi := max a2 b2
  String.mk ((s.data.take hi.toNat).drop lo.toNat)

/-- The `isPrefixed` test of validateKey_: `PrefixPattern.test(key)` with
`PrefixPattern = /^(.*\/.*)$/`. -/
def isPrefixedOf (key : String) : Bool := rmatch reSlashTest key.data

/-- The `slashPosition` computed by validateKey_. -/
def slashPositionOf (key : String) : Int :=
  if isPrefixedOf key then jsIndexOfSlash key else -1

/-- matchesKeyPrefixPattern_ from the source: tests the prefix substring
(or the placeholder "valid-pattern" for unprefixed keys) against the DNS
pattern. -/
def matchesKeyPrefixPattern_ (key : String) (isPrefixed : Bool)
    (slashPosition : Int) : Bool :=
  let labelPre := if isPrefixed then jsSubstring key 0 slashPosition
                  else "valid-pattern"
  rmatch reDns labelPre.data

/-- matchesKeyNamePattern_ from the source: tests the name substring (after
the first "/", or the whole key) against the name pattern. -/
def matchesKeyNamePattern_ (key : String) (isPrefixed : Bool)
    (slashPosition : Int) : Bool :=
  let labelName := if isPrefixed
                   then jsSubstring key (slashPosition + 1) (key.length : Int)
                   else key
  rmatch reNameK labelName.data

/-- matchesKeyPrefixLength_ from the source: the prefix substring (empty
for unprefixed keys) is at most 253 characters. -/
def matchesKeyPrefixLength_ (key : String) (isPrefixed : Bool)
    (slashPosition : Int) : Bool :=
  let labelPre := if isPrefixed then jsSubstring key 0 slashPosition else ""
  decide (labelPre.length ≤ 253)

/-- matchesKeyNameLength_ from the source: the name substring (the whole
key for unprefixed keys) is at most 63 characters. -/
def matchesKeyNameLength_ (key : String) (isPrefixed : Bool)
    (slashPosition : Int) : Bool :=
  let labelName := if isPrefixed
                   then jsSubstring key (slashPosition + 1) (key.length : Int)
                   else key
  decide (labelName.length ≤ 63)

/-- The five named validity flags validateKey_ reports on the form field. -/
structure KeyValidity where
  unique : Bool
  prefixPattern : Bool
  namePattern : Bool
  prefixLength : Bool
  nameLength : Bool
deriving DecidableEq

/-- The body of validateKey_ behind the `angular.isDefined(labelForm)`
guard: the five validity flags as computed from `this.labels` and
`this.label`. -/
def computeFlags (labels : List DeployLabel) (label : DeployLabel) : KeyValidity :=
  let isPrefixed := isPrefixedOf label.key
  let slashPosition := if isPrefixed then jsIndexOfSlash label.key else -1
  { unique := !(isKeyDuplicated_ labels label),
    prefixPattern := matchesKeyPrefixPattern_ label.key isPrefixed slashPosition,
    namePattern := matchesKeyNamePattern_ label.key isPrefixed slashPosition,
    prefixLength := matchesKeyPrefixLength_ label.key isPrefixed slashPosition,
    nameLength := matchesKeyNameLength_ label.key isPrefixed slashPosition }

/-- validateKey_: skipped entirely (no flags reported) when no form handle
is supplied. -/
def validateKey_ (labels : List DeployLabel) (label : DeployLabel)
    (formDefined : Bool) : Option KeyValidity :=
  if formDefined then some (computeFlags labels label) else none

/-- check: addIfNeeded_ then validateKey_ (which reads the already-updated
list).  Returns the new list and the flags reported, `none` if the call
throws. -/
def check (labels : List DeployLabel) (label : DeployLabel)
    (formDefined : Bool) : Option (List DeployLabel × Option KeyValidity) :=
  match addIfNeeded_ labels with
  | none => none
  | some labels2 => some (labels2, validateKey_ labels2 label formDefined)

/-- isRemovable: `!!(this.label.editable && this.label !== lastElement)`.
On an empty list `lastElement` is `undefined`, the inequality is true, and
the result is just the editable flag. -/
def isRemovable (labels : List DeployLabel) (label : DeployLabel) : Bool :=
  match labels.getLast? with
  | some lastElement => label.editable && !(sameRef label lastElement)
  | none => label.editable

/-- deleteLabel: `indexOf` (first index under `===`, or -1) followed by
`splice(rowIdx, 1)`. -/
def deleteLabel (labels : List DeployLabel) (label : DeployLabel) :
    List DeployLabel :=
  match labels.findIdx? (fun l => sameRef l label) with
  | some rowIdx => labels.take rowIdx ++ labels.drop (rowIdx + 1)
  | none => labels

/-!
Predicates written from the words of the specification and of the claims,
for comparison against the code's behaviour.
-/

/-- The name substring as the claims describe it: the part after the first
"/", or the whole key when the key contains no "/". -/
def claimNameOf (key : String) : String :=
  match key.data.findIdx? (fun c => c == '/') with
  | some i => String.mk (key.data.drop (i + 1))
  | none => key

/-- The prefix substring as the claims describe it: the part before the
first "/", or the empty string when the key contains no "/". -/
def claimPrefixOf (key : String) : String :=
  match key.data.findIdx? (fun c => c == '/') with
  | some i => String.mk (key.data.take i)
  | none => ""

/-- The valid name shape per the spec: one alphanumeric character (either
case), optionally followed by characters drawn from alphanumerics, '-',
'_' and '.', ending in an alphanumeric character. -/
def specNameShape : List Char → Bool
  | [] => false
  | c :: rest =>
      isAlnumB c && rest.dropLast.all isNameMidB && isAlnumB (rest.getLastD c)

/-- Claim C1's namePattern predicate: the name substring is empty, or
matches the valid name shape. -/
def specNamePatternC1 (key : String) : Bool :=
  (claimNameOf key).isEmpty || specNameShape (claimNameOf key).data

/-- The name substring the code actually validates (for the amended C1):
split after the first "/" only when the key contains a "/" and no line
terminator; otherwise the whole key. -/
def codeNameOf (key : String) : String :=
  if key.data.contains '/' && key.data.all (fun c => !isLineTermB c)
  then claimNameOf key else key

/-- The prefix substring the code actually checks (for the amended C9). -/
def codePrefixOf (key : String) : String :=
  if key.data.contains '/' && key.data.all (fun c => !isLineTermB c)
  then claimPrefixOf key else ""

/-- Amended C1 predicate: the code-split name matches the valid shape (an
empty name is rejected). -/
def specNamePatternAmended (key : String) : Bool :=
  specNameShape (codeNameOf key).data

/-- Claim C4's uniqueness predicate: true unless two or more entries of
the list carry the current entry's key and that key is non-empty. -/
def specUniqueOk (labels : List DeployLabel) (label : DeployLabel) : Bool :=
  !(label.key != "" && decide (2 ≤ labels.countP (fun l => l.key == label.key)))

theorem emp_iff_rmatches {s : List Char} : RMatches .emp s ↔ False := by
  constructor
  · intro h; cases h
  · intro h; cases h

theorem eps_iff_rmatches {s : List Char} : RMatches .eps s ↔ s = [] := by
  constructor
  · intro h; cases h; rfl
  · intro h; subst h; exact .eps

theorem chr_iff_rmatches {k : CClass} {s : List Char} :
    RMatches (.chr k) s ↔ ∃ c, s = [c] ∧ k.test c = true := by
  constructor
  · intro h; cases h with
    | chr hc => exact ⟨_, rfl, hc⟩
  · rintro ⟨c, rfl, hc⟩; exact .chr hc

theorem cat_iff_rmatches {a b : Regex} {s : List Char} :
    RMatches (.cat a b) s ↔ ∃ u v, s = u ++ v ∧ RMatches a u ∧ RMatches b v := by
  constructor
  · intro h; cases h with
    | cat ha hb => exact ⟨_, _, rfl, ha, hb⟩
  · rintro ⟨u, v, rfl, ha, hb⟩; exact .cat ha hb

theorem alt_iff_rmatches {a b : Regex} {s : List Char} :
    RMatches (.alt a b) s ↔ RMatches a s ∨ RMatches b s := by
  constructor
  · intro h; cases h with
    | altL h => exact Or.inl h
    | altR h => exact Or.inr h
  · rintro (h | h)
    · exact .altL h
    · exact .altR h

theorem cat_eps_left {b : Regex} {s : List Char} :
    RMatches (.cat .eps b) s ↔ RMatches b s := by
  rw [cat_iff_rmatches]
  constructor
  · rintro ⟨u, v, rfl, hu, hv⟩
    rw [eps_iff_rmatches] at hu
    subst hu
    simpa using hv
  · intro h
    exact ⟨[], s, (List.nil_append s).symm, .eps, h⟩

theorem cat_eps_right {a : Regex} {s : List Char} :
    RMatches (.cat a .eps) s ↔ RMatches a s := by
  rw [cat_iff_rmatches]
  constructor
  · rintro ⟨u, v, rfl, hu, hv⟩
    rw [eps_iff_rmatches] at hv
    subst hv
    simpa using hu
  · intro h
    exact ⟨s, [], (List.append_nil s).symm, h, .eps⟩

theorem cat_emp_left {b : Regex} {s : List Char} :
    RMatches (.cat .emp b) s ↔ False := by
  rw [cat_iff_rmatches]
  simp [emp_iff_rmatches]

theorem cat_emp_right {a : Regex} {s : List Char} :
    RMatches (.cat a .emp) s ↔ False := by
  rw [cat_iff_rmatches]
  simp [emp_iff_rmatches]

theorem rcat_iff {a b : Regex} {s : List Char} :
    RMatches (rcat a b) s ↔ RMatches (.cat a b) s := by
  cases a <;> cases b <;>
    simp_all [rcat, cat_eps_left, cat_eps_right, cat_emp_left, cat_emp_right,
      emp_iff_rmatches]

theorem ralt_iff {a b : Regex} {s : List Char} :
    RMatches (ralt a b) s ↔ RMatches (.alt a b) s := by
  cases a <;> cases b <;>
    simp_all [ralt, alt_iff_rmatches, emp_iff_rmatches]

theorem nullable_iff {r : Regex} : nullable r = true ↔ RMatches r [] := by
  induction r with
  | emp => simp [nullable, emp_iff_rmatches]
  | eps => simp [nullable, eps_iff_rmatches]
  | chr k => simp [nullable, chr_iff_rmatches]
  | cat a b iha ihb =>
      simp only [nullable, Bool.and_eq_true, iha, ihb, cat_iff_rmatches]
      constructor
      · rintro ⟨ha, hb⟩; exact ⟨[], [], rfl, ha, hb⟩
      · rintro ⟨u, v, huv, ha, hb⟩
        rcases List.append_eq_nil.mp huv.symm with ⟨rfl, rfl⟩
        exact ⟨ha, hb⟩
  | alt a b iha ihb =>
      simp only [nullable, Bool.or_eq_true, iha, ihb, alt_iff_rmatches]
  | star a ih =>
      simp only [nullable, true_iff]
      exact .starNil

theorem star_cons_inv {a : Regex} {l : List Char} (h : RMatches (.star a) l) :
    ∀ c s, l = c :: s →
      ∃ u v, s = u ++ v ∧ RMatches a (c :: u) ∧ RMatches (.star a) v := by
  generalize hr : Regex.star a = r at h
  induction h with
  | eps => exact fun c s hcs => absurd hr (by simp)
  | chr _ => exact fun c s hcs => absurd hr (by simp)
  | cat _ _ _ _ => exact fun c s hcs => absurd hr (by simp)
  | altL _ _ => exact fun c s hcs => absurd hr (by simp)
  | altR _ _ => exact fun c s hcs => absurd hr (by simp)
  | starNil => intro c s hcs; cases hcs
  | starCons hfst hrest ih1 ih2 =>
      intro c s hcs
      cases hr
      rename_i s1 t1
      cases s1 with
      | nil => exact ih2 rfl c s hcs
      | cons c1 u1 =>
          rw [List.cons_append] at hcs
          injection hcs with hc hs
          subst hc
          exact ⟨u1, t1, hs.symm, hfst, hrest⟩

theorem deriv_iff {r : Regex} {c : Char} {s : List Char} :
    RMatches (rderiv r c) s ↔ RMatches r (c :: s) := by
  induction r generalizing s with
  | emp => simp [rderiv, emp_iff_rmatches]
  | eps =>
      simp [rderiv, emp_iff_rmatches, eps_iff_rmatches]
  | chr k =>
      by_cases hk : k.test c = true
      · rw [show rderiv (.chr k) c = .eps by simp [rderiv, hk]]
        rw [eps_iff_rmatches, chr_iff_rmatches]
        constructor
        · rintro rfl; exact ⟨c, rfl, hk⟩
        · rintro ⟨d, hd, -⟩
          exact (List.cons_eq_cons.mp hd).2
      · rw [show rderiv (.chr k) c = .emp by simp [rderiv, hk]]
        rw [emp_iff_rmatches, chr_iff_rmatches]
        simp only [false_iff, not_exists]
        rintro d ⟨hd, htest⟩
        injection hd with h1 h2
        subst h1
        exact hk htest
  | cat a b iha ihb =>
      by_cases hn : nullable a = true
      · rw [show rderiv (.cat a b) c = ralt (rcat (rderiv a c) b) (rderiv b c) by
          simp [rderiv, hn]]
        rw [ralt_iff, alt_iff_rmatches, rcat_iff]
        simp only [cat_iff_rmatches]
        constructor
        · rintro (⟨u, v, rfl, hu, hv⟩ | hb)
          · exact ⟨c :: u, v, rfl, iha.mp hu, hv⟩
          · exact ⟨[], c :: s, rfl, nullable_iff.mp hn, ihb.mp hb⟩
        · rintro ⟨u, v, huv, hu, hv⟩
          cases u with
          | nil =>
              simp only [List.nil_append] at huv
              subst huv
              exact Or.inr (ihb.mpr hv)
          | cons c1 u1 =>
              rw [List.cons_append] at huv
              injection huv with h1 h2
              subst h1
              exact Or.inl ⟨u1, v, h2, iha.mpr hu, hv⟩
      · rw [show rderiv (.cat a b) c = rcat (rderiv a c) b by simp [rderiv, hn]]
        rw [rcat_iff]
        simp only [cat_iff_rmatches]
        constructor
        · rintro ⟨u, v, rfl, hu, hv⟩
          exact ⟨c :: u, v, rfl, iha.mp hu, hv⟩
        · rintro ⟨u, v, huv, hu, hv⟩
          cases u with
          | nil =>
              exact absurd (nullable_iff.mpr hu) hn
          | cons c1 u1 =>
              rw [List.cons_append] at huv
              injection huv with h1 h2
              subst h1
              exact ⟨u1, v, h2, iha.mpr hu, hv⟩
  | alt a b iha ihb =>
      simp [rderiv, ralt_iff, alt_iff_rmatches, iha, ihb]
  | star a ih =>
      simp only [rderiv, rcat_iff, cat_iff_rmatches]
      constructor
      · rintro ⟨u, v, rfl, hu, hv⟩
        exact .starCons (ih.mp hu) hv
      · intro h
        rcases star_cons_inv h c s rfl with ⟨u, v, rfl, hu, hv⟩
        exact ⟨u, v, rfl, ih.mpr hu, hv⟩

theorem rmatch_iff {r : Regex} {s : List Char} :
    rmatch r s = true ↔ RMatches r s := by
  induction s generalizing r with
  | nil => exact nullable_iff
  | cons c t ih =>
      show nullable ((c :: t).foldl rderiv r) = true ↔ _
      rw [List.foldl_cons]
      exact (ih (r := rderiv r c)).trans deriv_iff

theorem range_point (a c : Char) : (decide (a ≤ c) && decide (c ≤ a)) = (c == a) := by
  by_cases h : c = a
  · subst h; simp
  · have h2 : ¬(a ≤ c ∧ c ≤ a) := fun hh => h (le_antisymm hh.2 hh.1)
    rcases not_and_or.mp h2 with h3 | h3 <;> simp [h3, h]

theorem dotC_test (c : Char) : dotC.test c = !isLineTermB c := by
  simp only [CClass.test, dotC, List.any_cons, List.any_nil, range_point,
    isLineTermB, Bool.or_false]
  cases h1 : c == '\n' <;> cases h2 : c == '\r' <;>
    cases h3 : c == '\u2028' <;> cases h4 : c == '\u2029' <;>
      simp [h1, h2, h3, h4]

theorem slashC_test (c : Char) : slashC.test c = (c == '/') := by
  simp [CClass.test, slashC, range_point]

theorem alnumC_test (c : Char) : alnumC.test c = isAlnumB c := by
  simp [CClass.test, alnumC, isAlnumB, Bool.decide_and, Bool.decide_or,
    Bool.or_assoc]

theorem nameMidC_test (c : Char) : nameMidC.test c = isNameMidB c := by
  simp only [CClass.test, nameMidC, isNameMidB, List.any_cons, List.any_nil,
    range_point, Bool.or_false, Bool.decide_or, Bool.decide_and, bne,
    Bool.not_false]
  have hdash : (c == '-') = decide (c = '-') := by
    by_cases h : c = '-' <;> simp [h]
  have hus : (c == '_') = decide (c = '_') := by
    by_cases h : c = '_' <;> simp [h]
  have hdot : (c == '.') = decide (c = '.') := by
    by_cases h : c = '.' <;> simp [h]
  rw [hdash, hus, hdot]
  simp [Bool.or_assoc]

theorem star_chr_all {k : CClass} {l : List Char}
    (h : RMatches (.star (.chr k)) l) : ∀ c ∈ l, k.test c = true := by
  generalize hr : Regex.star (Regex.chr k) = r at h
  induction h with
  | eps => exact absurd hr (by simp)
  | chr _ => exact absurd hr (by simp)
  | cat _ _ _ _ => exact absurd hr (by simp)
  | altL _ _ => exact absurd hr (by simp)
  | altR _ _ => exact absurd hr (by simp)
  | starNil => intro c hc; cases hc
  | starCons hfst hrest ih1 ih2 =>
      cases hr
      intro c hc
      rcases List.mem_append.mp hc with hc | hc
      · rcases chr_iff_rmatches.mp hfst with ⟨d, hs1, hd⟩
        subst hs1
        rcases List.mem_singleton.mp hc
        exact hd
      · exact ih2 rfl c hc

theorem star_chr_of_all {k : CClass} {l : List Char}
    (h : ∀ c ∈ l, k.test c = true) : RMatches (.star (.chr k)) l := by
  induction l with
  | nil => exact .starNil
  | cons c t ih =>
      have h2 : RMatches (.star (.chr k)) (([c] : List Char) ++ t) :=
        .starCons (.chr (h c (by simp))) (ih fun d hd => h d (by simp [hd]))
      simpa using h2

theorem slashTest_iff {s : List Char} :
    RMatches reSlashTest s ↔ ('/' ∈ s ∧ ∀ c ∈ s, isLineTermB c = false) := by
  rw [show reSlashTest =
    .cat (.star (.chr dotC)) (.cat (.chr slashC) (.star (.chr dotC))) from rfl]
  rw [cat_iff_rmatches]
  constructor
  · rintro ⟨u, v, rfl, hu, hv⟩
    rw [cat_iff_rmatches] at hv
    rcases hv with ⟨m, w, rfl, hm, hw⟩
    rcases chr_iff_rmatches.mp hm with ⟨c, hmc, hc⟩
    subst hmc
    rw [slashC_test] at hc
    have hcs : c = '/' := by simpa using hc
    subst hcs
    have hdu := star_chr_all hu
    have hdw := star_chr_all hw
    refine ⟨List.mem_append.mpr (Or.inr (List.mem_append.mpr (Or.inl (by simp)))), ?_⟩
    intro c hc2
    rcases List.mem_append.mp hc2 with h2 | h2
    · have h3 := hdu c h2
      rw [dotC_test] at h3
      simpa using h3
    · rcases List.mem_append.mp h2 with h3 | h3
      · rcases List.mem_singleton.mp h3
        rfl
      · have h4 := hdw c h3
        rw [dotC_test] at h4
        simpa using h4
  · rintro ⟨hmem, hall⟩
    rcases List.append_of_mem hmem with ⟨u, w, rfl⟩
    refine ⟨u, '/' :: w, rfl, ?_, ?_⟩
    · apply star_chr_of_all
      intro c hc
      rw [dotC_test]
      simp [hall c (List.mem_append.mpr (Or.inl hc))]
    · rw [show ('/' :: w : List Char) = ['/'] ++ w from rfl, cat_iff_rmatches]
      refine ⟨['/'], w, rfl, .chr (by rw [slashC_test]; simp), ?_⟩
      apply star_chr_of_all
      intro c hc
      rw [dotC_test]
      simp [hall c (by simp [hc])]

theorem isPrefixedOf_eq (key : String) :
    isPrefixedOf key =
      (key.data.contains '/' && key.data.all (fun c => !isLineTermB c)) := by
  rw [Bool.eq_iff_iff, isPrefixedOf, rmatch_iff, slashTest_iff]
  rw [Bool.and_eq_true, List.all_eq_true]
  constructor
  · rintro ⟨h1, h2⟩
    refine ⟨List.elem_iff.mpr h1, fun c hc => by simp [h2 c hc]⟩
  · rintro ⟨h1, h2⟩
    refine ⟨List.elem_iff.mp h1, fun c hc => ?_⟩
    have h3 := h2 c hc
    simpa using h3

theorem nameK_iff {s : List Char} :
    RMatches reNameK s ↔
      ∃ u d, s = u ++ [d] ∧ isAlnumB d = true ∧
        (u = [] ∨ ∃ c0 m, u = c0 :: m ∧ isAlnumB c0 = true ∧
          ∀ x ∈ m, isNameMidB x = true) := by
  rw [show reNameK =
    .cat (.alt .eps (.cat (.chr alnumC) (.star (.chr nameMidC)))) (.chr alnumC)
    from rfl]
  rw [cat_iff_rmatches]
  constructor
  · rintro ⟨u, v, rfl, hu, hv⟩
    rcases chr_iff_rmatches.mp hv with ⟨d, hvd, hd⟩
    subst hvd
    rw [alnumC_test] at hd
    refine ⟨u, d, rfl, hd, ?_⟩
    rw [alt_iff_rmatches] at hu
    rcases hu with hu | hu
    · exact Or.inl (eps_iff_rmatches.mp hu)
    · rw [cat_iff_rmatches] at hu
      rcases hu with ⟨m1, m2, rfl, hm1, hm2⟩
      rcases chr_iff_rmatches.mp hm1 with ⟨c0, hm1c, hc0⟩
      subst hm1c
      rw [alnumC_test] at hc0
      refine Or.inr ⟨c0, m2, rfl, hc0, fun x hx => ?_⟩
      have h5 := star_chr_all hm2 x hx
      rwa [nameMidC_test] at h5
  · rintro ⟨u, d, rfl, hd, hopt⟩
    refine ⟨u, [d], rfl, ?_, .chr (by rw [alnumC_test]; exact hd)⟩
    rcases hopt with rfl | ⟨c0, m, rfl, hc0, hm⟩
    · exact .altL .eps
    · refine .altR ?_
      rw [show (c0 :: m : List Char) = [c0] ++ m from rfl]
      exact .cat (.chr (by rw [alnumC_test]; exact hc0))
        (star_chr_of_all fun x hx => by rw [nameMidC_test]; exact hm x hx)

theorem rmatch_nameK (s : List Char) : rmatch reNameK s = specNameShape s := by
  rw [Bool.eq_iff_iff, rmatch_iff, nameK_iff]
  cases s with
  | nil =>
      simp only [specNameShape, Bool.false_eq_true, iff_false, not_exists]
      rintro u d ⟨he, -, -⟩
      exact absurd he.symm (by simp)
  | cons c rest =>
      rcases List.eq_nil_or_concat rest with rfl | ⟨m, b, hrest⟩
      · constructor
        · rintro ⟨u, d, he, hd, -⟩
          cases u with
          | nil =>
              rw [List.nil_append] at he
              rcases List.cons_eq_cons.mp he with ⟨rfl, -⟩
              simp [specNameShape, hd]
          | cons c0 t =>
              rw [List.cons_append] at he
              rcases List.cons_eq_cons.mp he with ⟨rfl, ht⟩
              exact absurd ht.symm (by simp)
        · intro hc
          have hcA : isAlnumB c = true := by
            simp only [specNameShape, List.dropLast_nil, List.all_nil,
              List.getLastD_nil, Bool.true_and, Bool.and_true, Bool.and_self] at hc
            exact hc
          exact ⟨[], c, rfl, hcA, Or.inl rfl⟩
      · subst hrest
        rw [List.concat_eq_append]
        have hsplit : (c :: (m ++ [b]) : List Char) = (c :: m) ++ [b] := by simp
        constructor
        · rintro ⟨u, d, he, hd, hopt⟩
          rw [hsplit] at he
          rcases List.append_inj' he (by rfl) with ⟨hu, hdb⟩
          rcases List.cons_eq_cons.mp hdb with ⟨rfl, -⟩
          rcases hopt with rfl | ⟨c0, m1, heq, hc0, hmid⟩
          · exact absurd hu (by simp)
          · rw [← hu] at heq
            rcases List.cons_eq_cons.mp heq with ⟨rfl, rfl⟩
            simp only [specNameShape, List.dropLast_concat, List.getLastD_concat,
              Bool.and_eq_true, List.all_eq_true]
            exact ⟨⟨hc0, hmid⟩, hd⟩
        · intro hrhs
          simp only [specNameShape, List.dropLast_concat, List.getLastD_concat,
            Bool.and_eq_true, List.all_eq_true] at hrhs
          rcases hrhs with ⟨⟨hc, hmid⟩, hb⟩
          exact ⟨c :: m, b, by simp, hb, Or.inr ⟨c, m, rfl, hc, hmid⟩⟩


theorem jsSubstring_eq (s : String) (a b : Nat) (ha : a ≤ b) (hb : b ≤ s.length) :
    jsSubstring s (a : Int) (b : Int) = String.mk ((s.data.take b).drop a) := by
  simp only [jsSubstring]
  have e1 : min (max (a : Int) 0) (s.length : Int) = (a : Int) := by omega
  have e2 : min (max (b : Int) 0) (s.length : Int) = (b : Int) := by omega
  rw [e1, e2]
  have e3 : min (a : Int) (b : Int) = (a : Int) := by omega
  have e4 : max (a : Int) (b : Int) = (b : Int) := by omega
  rw [e3, e4]
  simp

theorem jsSubstring_take (s : String) (i : Nat) (h : i ≤ s.length) :
    jsSubstring s 0 (i : Int) = String.mk (s.data.take i) := by
  have h2 := jsSubstring_eq s 0 i (Nat.zero_le i) h
  simpa using h2

theorem jsSubstring_drop (s : String) (i : Nat) (h : i ≤ s.length) :
    jsSubstring s (i : Int) (s.length : Int) = String.mk (s.data.drop i) := by
  have h2 := jsSubstring_eq s i s.length h (le_refl _)
  rw [show s.length = s.data.length from rfl, List.take_length] at h2
  exact h2

theorem findIdx?_cons_eq {α : Type} (p : α → Bool) (a : α) (t : List α) :
    (a :: t).findIdx? p = if p a then some 0 else (t.findIdx? p).map (· + 1) := by
  rw [List.findIdx?_cons, List.findIdx?_succ]

theorem slash_some_of_prefixed {key : String} (h : isPrefixedOf key = true) :
    ∃ i, key.data.findIdx? (fun c => c == '/') = some i ∧ i < key.length := by
  rw [isPrefixedOf_eq, Bool.and_eq_true] at h
  rcases h with ⟨hc, -⟩
  have hmem : '/' ∈ key.data := List.elem_iff.mp hc
  rcases hn : key.data.findIdx? (fun c => c == '/') with - | i
  · have h2 := List.findIdx?_eq_none_iff.mp hn '/' hmem
    simp at h2
  · exact ⟨i, rfl, (List.findIdx?_eq_some_iff_getElem.mp hn).1⟩

theorem prefixed_cond_true {key : String} (hp : isPrefixedOf key = true) :
    (key.data.contains '/' && key.data.all (fun c => !isLineTermB c)) = true := by
  rw [← isPrefixedOf_eq]
  exact hp

theorem prefixed_cond_false {key : String} (hp : isPrefixedOf key = false) :
    (key.data.contains '/' && key.data.all (fun c => !isLineTermB c)) = false := by
  rw [← isPrefixedOf_eq]
  exact hp

theorem prefixed_cond_not_true {key : String} (hp : isPrefixedOf key = false) :
    ¬((key.data.contains '/' && key.data.all (fun c => !isLineTermB c)) = true) := by
  rw [prefixed_cond_false hp]
  exact Bool.false_ne_true

theorem codeNameOf_of_prefixed {key : String} (hp : isPrefixedOf key = true)
    {i : Nat} (hf : key.data.findIdx? (fun c => c == '/') = some i) :
    codeNameOf key = String.mk (key.data.drop (i + 1)) := by
  unfold codeNameOf
  rw [if_pos (prefixed_cond_true hp)]
  unfold claimNameOf
  rw [hf]

theorem codeNameOf_of_not_prefixed {key : String} (hp : isPrefixedOf key = false) :
    codeNameOf key = key := by
  unfold codeNameOf
  rw [if_neg (prefixed_cond_not_true hp)]

theorem codePrefixOf_of_prefixed {key : String} (hp : isPrefixedOf key = true)
    {i : Nat} (hf : key.data.findIdx? (fun c => c == '/') = some i) :
    codePrefixOf key = String.mk (key.data.take i) := by
  unfold codePrefixOf
  rw [if_pos (prefixed_cond_true hp)]
  unfold claimPrefixOf
  rw [hf]

theorem codePrefixOf_of_not_prefixed {key : String} (hp : isPrefixedOf key = false) :
    codePrefixOf key = "" := by
  unfold codePrefixOf
  rw [if_neg (prefixed_cond_not_true hp)]

theorem namePattern_flag_eq (labels : List DeployLabel) (label : DeployLabel) :
    (computeFlags labels label).namePattern = specNamePatternAmended label.key := by
  show matchesKeyNamePattern_ label.key (isPrefixedOf label.key)
      (if isPrefixedOf label.key then jsIndexOfSlash label.key else -1) =
    specNamePatternAmended label.key
  unfold specNamePatternAmended
  by_cases hp : isPrefixedOf label.key = true
  · rcases slash_some_of_prefixed hp with ⟨i, hf, hlt⟩
    have hslash : jsIndexOfSlash label.key = (i : Int) := by
      unfold jsIndexOfSlash
      rw [hf]
    rw [if_pos hp, hslash]
    simp only [matchesKeyNamePattern_]
    rw [if_pos hp]
    have hadd : ((i : Int) + 1) = ((i + 1 : Nat) : Int) := by omega
    rw [hadd, jsSubstring_drop label.key (i + 1) (by omega)]
    rw [codeNameOf_of_prefixed hp hf]
    exact rmatch_nameK _
  · rw [Bool.not_eq_true] at hp
    rw [if_neg (by simp [hp])]
    simp only [matchesKeyNamePattern_]
    rw [if_neg (by simp [hp]), codeNameOf_of_not_prefixed hp]
    exact rmatch_nameK _

theorem prefixLength_flag_eq (labels : List DeployLabel) (label : DeployLabel) :
    (computeFlags labels label).prefixLength =
      decide ((codePrefixOf label.key).length ≤ 253) := by
  show matchesKeyPrefixLength_ label.key (isPrefixedOf label.key)
      (if isPrefixedOf label.key then jsIndexOfSlash label.key else -1) = _
  by_cases hp : isPrefixedOf label.key = true
  · rcases slash_some_of_prefixed hp with ⟨i, hf, hlt⟩
    have hslash : jsIndexOfSlash label.key = (i : Int) := by
      unfold jsIndexOfSlash
      rw [hf]
    rw [if_pos hp, hslash]
    simp only [matchesKeyPrefixLength_]
    rw [if_pos hp]
    rw [jsSubstring_take label.key i (le_of_lt hlt)]
    rw [codePrefixOf_of_prefixed hp hf]
  · rw [Bool.not_eq_true] at hp
    rw [if_neg (by simp [hp])]
    simp only [matchesKeyPrefixLength_]
    rw [if_neg (by simp [hp]), codePrefixOf_of_not_prefixed hp]

theorem nameLength_flag_eq (labels : List DeployLabel) (label : DeployLabel) :
    (computeFlags labels label).nameLength =
      decide ((codeNameOf label.key).length ≤ 63) := by
  show matchesKeyNameLength_ label.key (isPrefixedOf label.key)
      (if isPrefixedOf label.key then jsIndexOfSlash label.key else -1) = _
  by_cases hp : isPrefixedOf label.key = true
  · rcases slash_some_of_prefixed hp with ⟨i, hf, hlt⟩
    have hslash : jsIndexOfSlash label.key = (i : Int) := by
      unfold jsIndexOfSlash
      rw [hf]
    rw [if_pos hp, hslash]
    simp only [matchesKeyNameLength_]
    rw [if_pos hp]
    have hadd : ((i : Int) + 1) = ((i + 1 : Nat) : Int) := by omega
    rw [hadd, jsSubstring_drop label.key (i + 1) (by omega)]
    rw [codeNameOf_of_prefixed hp hf]
  · rw [Bool.not_eq_true] at hp
    rw [if_neg (by simp [hp])]
    simp only [matchesKeyNameLength_]
    rw [if_neg (by simp [hp]), codeNameOf_of_not_prefixed hp]

theorem foldl_count_eq (p : DeployLabel → Bool) (l : List DeployLabel) :
    ∀ n : Nat, l.foldl (fun k x => if p x then k + 1 else k) n = n + l.countP p := by
  induction l with
  | nil => intro n; simp
  | cons a t ih =>
      intro n
      rw [List.foldl_cons, List.countP_cons]
      by_cases hp : p a = true
      · rw [if_pos hp, if_pos hp, ih]
        omega
      · rw [Bool.not_eq_true] at hp
        rw [hp]
        simp only [if_neg (by simp : ¬false = true), ih]
        omega

theorem isKeyDuplicated_eq (labels : List DeployLabel) (label : DeployLabel) :
    isKeyDuplicated_ labels label =
      decide (1 <
        labels.countP (fun l => label.key.length != 0 && l.key == label.key)) := by
  unfold isKeyDuplicated_
  rw [foldl_count_eq]
  simp

theorem string_length_ne_zero {s : String} (h : s ≠ "") : (s.length != 0) = true := by
  cases s with
  | mk l =>
      cases l with
      | nil => exact absurd rfl h
      | cons c t => simp [String.length]

theorem unique_flag_eq (labels : List DeployLabel) (label : DeployLabel) :
    (computeFlags labels label).unique = specUniqueOk labels label := by
  show (!isKeyDuplicated_ labels label) = specUniqueOk labels label
  rw [isKeyDuplicated_eq]
  by_cases hk : label.key = ""
  · have h0 :
        labels.countP (fun l => label.key.length != 0 && l.key == label.key) = 0 := by
      apply List.countP_eq_zero.mpr
      intro a ha
      simp [hk]
    rw [h0]
    simp [specUniqueOk, hk]
  · have hlen := string_length_ne_zero hk
    have hcong :
        labels.countP (fun l => label.key.length != 0 && l.key == label.key) =
          labels.countP (fun l => l.key == label.key) :=
      List.countP_congr (by intro x hx; simp [hlen])
    rw [hcong]
    have hne : (label.key != "") = true := bne_iff_ne.mpr hk
    simp only [specUniqueOk, hne, Bool.true_and]
    have h12 : decide (1 < labels.countP (fun l => l.key == label.key)) =
        decide (2 ≤ labels.countP (fun l => l.key == label.key)) := by
      apply decide_eq_decide.mpr
      omega
    rw [h12]

theorem addIfNeeded_of_ne_nil (labels : List DeployLabel) (h : labels ≠ []) :
    addIfNeeded_ labels =
      some (if isFilled_ (labels.getLast h) then addNewLabel_ labels else labels) := by
  unfold addIfNeeded_
  rw [List.getLast?_eq_getLast labels h]
  show (if isFilled_ (labels.getLast h) = true then some (addNewLabel_ labels)
      else some labels) =
    some (if isFilled_ (labels.getLast h) = true then addNewLabel_ labels else labels)
  by_cases hf : isFilled_ (labels.getLast h) = true
  · rw [if_pos hf, if_pos hf]
  · rw [if_neg hf, if_neg hf]

theorem deleteLabel_eq_eraseP (labels : List DeployLabel) (label : DeployLabel) :
    deleteLabel labels label = labels.eraseP (fun l => sameRef l label) := by
  induction labels with
  | nil => rfl
  | cons a t ih =>
      by_cases hp : sameRef a label = true
      · have hidx : (a :: t).findIdx? (fun l => sameRef l label) = some 0 := by
          rw [findIdx?_cons_eq]
          simp [hp]
        unfold deleteLabel
        simp only [hidx]
        rw [List.eraseP_cons]
        simp [hp]
      · rw [Bool.not_eq_true] at hp
        rcases hfi : t.findIdx? (fun l => sameRef l label) with - | i
        · have hidx : (a :: t).findIdx? (fun l => sameRef l label) = none := by
            rw [findIdx?_cons_eq]
            simp [hp, hfi]
          unfold deleteLabel
          simp only [hidx]
          rw [List.eraseP_cons]
          have ht : List.eraseP (fun l => sameRef l label) t = t := by
            rw [← ih]
            unfold deleteLabel
            rw [hfi]
          simp [hp, ht]
        · have hidx : (a :: t).findIdx? (fun l => sameRef l label) = some (i + 1) := by
            rw [findIdx?_cons_eq]
            simp [hp, hfi]
          unfold deleteLabel
          simp only [hidx]
          rw [List.eraseP_cons, List.take_succ_cons, List.drop_succ_cons]
          have ht : List.eraseP (fun l => sameRef l label) t =
              t.take i ++ t.drop (i + 1) := by
            rw [← ih]
            unfold deleteLabel
            rw [hfi]
          simp [hp, ht]

/-- C1 counterexample: the claim is false as stated.  For the key "" the
name substring is the whole (empty) key, which the claim's predicate
accepts ("must be empty, OR match ..."), yet the computed `namePattern`
flag is false: the regex `^([A-Za-z0-9][-A-Za-z0-9_.]*)?[A-Za-z0-9]$`
requires at least one final alphanumeric character. -/
theorem namePattern_empty_name_cex :
    (computeFlags [] { ref := 0, key := "", value := "", editable := true }).namePattern
      = false ∧
    specNamePatternC1 "" = true := by
  exact ⟨by decide, by decide⟩

/-- C1 (amended): the `namePattern` flag is true iff the name substring —
the part after the first "/" when the key contains a "/" and no line
terminator, otherwise the whole key — is one alphanumeric character
(either case), optionally followed by characters from alphanumerics, '-',
'_', '.', ending in an alphanumeric character; the empty name fails.  In
particular the key "name$" yields `namePattern` false. -/
theorem namePattern_flag_spec :
    (∀ (labels : List DeployLabel) (label : DeployLabel),
      (computeFlags labels label).namePattern = specNamePatternAmended label.key) ∧
    (computeFlags [] { ref := 0, key := "name$", value := "", editable := true }).namePattern
      = false := by
  exact ⟨namePattern_flag_eq, by decide⟩

/-- C2 counterexample: the claim is false as stated.  On the empty label
list, `check` reads `labels[-1]` (`undefined`) and `isFilled_` throws a
TypeError dereferencing `undefined.key`; in the model the call returns
`none`. -/
theorem check_empty_list_throws :
    check [] { ref := 0, key := "", value := "", editable := true } true = none := rfl

/-- C2 (amended): for every non-empty label list, every current entry and
any form state, `check` never throws: all validity checks are total and
degrade to booleans. -/
theorem check_no_throw_of_ne_nil (labels : List DeployLabel) (label : DeployLabel)
    (formDefined : Bool) (h : labels ≠ []) :
    (check labels label formDefined).isSome = true := by
  unfold check
  rw [addIfNeeded_of_ne_nil labels h]
  rfl

theorem check_no_throw_witness :
    (check [{ ref := 0, key := "a", value := "b", editable := true }]
      { ref := 0, key := "a", value := "b", editable := true } true).isSome = true :=
  check_no_throw_of_ne_nil _ _ _ (by simp)

/-- C3 counterexample: the claim is false as stated.  The key "\n/"
contains a "/", yet the `PrefixPattern` test `/^(.*\/.*)$/` fails because
the JavaScript dot does not match the newline, so the key is not treated
as prefixed by any of the four checks. -/
theorem prefixed_newline_cex :
    ("\n/".data.contains '/') = true ∧ isPrefixedOf "\n/" = false := by
  exact ⟨by decide, by decide⟩

/-- C3 (amended): a key is treated as prefixed for the four pattern and
length checks exactly when it contains a "/" and no line terminator
(`\n`, `\r`, U+2028, U+2029); in that case the split point is the first
"/": the substring checked as prefix is everything before it and the
substring checked as name is everything after it. -/
theorem prefixed_iff_spec :
    ∀ key : String,
      (isPrefixedOf key =
        (key.data.contains '/' && key.data.all (fun c => !isLineTermB c))) ∧
      (isPrefixedOf key = true →
        jsSubstring key 0 (slashPositionOf key) = claimPrefixOf key ∧
        jsSubstring key (slashPositionOf key + 1) (key.length : Int) =
          claimNameOf key) := by
  intro key
  refine ⟨isPrefixedOf_eq key, fun hp => ?_⟩
  rcases slash_some_of_prefixed hp with ⟨i, hf, hlt⟩
  have hsp : slashPositionOf key = (i : Int) := by
    unfold slashPositionOf
    rw [if_pos hp]
    unfold jsIndexOfSlash
    rw [hf]
  rw [hsp]
  constructor
  · rw [jsSubstring_take key i (le_of_lt hlt)]
    unfold claimPrefixOf
    rw [hf]
  · have hadd : ((i : Int) + 1) = ((i + 1 : Nat) : Int) := by omega
    rw [hadd, jsSubstring_drop key (i + 1) (by omega)]
    unfold claimNameOf
    rw [hf]

theorem prefixed_iff_witness :
    isPrefixedOf "a/b" = true ∧
    jsSubstring "a/b" 0 (slashPositionOf "a/b") = claimPrefixOf "a/b" ∧
    jsSubstring "a/b" (slashPositionOf "a/b" + 1) (("a/b".length : Int)) =
      claimNameOf "a/b" :=
  ⟨by decide, (prefixed_iff_spec "a/b").2 (by decide)⟩

/-- C4: the `unique` flag is true unless two or more entries of the list
carry the current entry's key and that key is non-empty; empty keys never
count.  The spec's two example lists behave as stated. -/
theorem unique_flag_spec :
    (∀ (labels : List DeployLabel) (label : DeployLabel),
      (computeFlags labels label).unique = specUniqueOk labels label) ∧
    (computeFlags [⟨0, "a", "", true⟩, ⟨1, "a", "", true⟩, ⟨2, "", "", true⟩]
      ⟨0, "a", "", true⟩).unique = false ∧
    (computeFlags [⟨0, "a", "", true⟩, ⟨1, "a", "", true⟩, ⟨2, "", "", true⟩]
      ⟨1, "a", "", true⟩).unique = false ∧
    (computeFlags [⟨0, "a", "", true⟩, ⟨1, "b", "", true⟩]
      ⟨0, "a", "", true⟩).unique = true ∧
    (computeFlags [⟨0, "a", "", true⟩, ⟨1, "b", "", true⟩]
      ⟨1, "b", "", true⟩).unique = true := by
  exact ⟨unique_flag_eq, by decide, by decide, by decide, by decide⟩

/-- C5: for every non-empty label list, if the last entry is filled (key
and value() both non-empty) `check` appends exactly one blank editable
entry (key = "", value = "", editable = true), growing the list by one;
otherwise the list is returned unchanged. -/
theorem check_append_spec (labels : List DeployLabel) (label : DeployLabel)
    (formDefined : Bool) (h : labels ≠ []) :
    (isFilled_ (labels.getLast h) = true →
      ∃ v b, check labels label formDefined = some (labels ++ [b], v) ∧
        b.key = "" ∧ b.value = "" ∧ b.editable = true ∧
        (labels ++ [b]).length = labels.length + 1) ∧
    (isFilled_ (labels.getLast h) = false →
      ∃ v, check labels label formDefined = some (labels, v)) := by
  have ha := addIfNeeded_of_ne_nil labels h
  constructor
  · intro hf
    rw [if_pos hf] at ha
    refine ⟨validateKey_ (addNewLabel_ labels) label formDefined,
      newDeployLabel (freshRef labels), ?_, rfl, rfl, rfl, by simp⟩
    unfold check
    rw [ha]
    rfl
  · intro hf
    rw [if_neg (by simp [hf])] at ha
    refine ⟨validateKey_ labels label formDefined, ?_⟩
    unfold check
    rw [ha]

theorem check_append_witness :
    ∃ v b, check [⟨0, "k", "v", true⟩] ⟨0, "k", "v", true⟩ true =
        some ([⟨0, "k", "v", true⟩] ++ [b], v) ∧
      b.key = "" ∧ b.value = "" ∧ b.editable = true ∧
      (([⟨0, "k", "v", true⟩] : List DeployLabel) ++ [b]).length =
        ([⟨0, "k", "v", true⟩] : List DeployLabel).length + 1 :=
  (check_append_spec [⟨0, "k", "v", true⟩] ⟨0, "k", "v", true⟩ true
    (by simp)).1 (by decide)

/-- C6: for every non-empty list, `isRemovable` is the conjunction of the
entry's editable flag and the entry not being (by identity) the last
element; in particular it is false for the last entry whatever its
editable flag. -/
theorem isRemovable_spec (labels : List DeployLabel) (label : DeployLabel)
    (h : labels ≠ []) :
    isRemovable labels label =
      (label.editable && !(sameRef label (labels.getLast h))) ∧
    (sameRef label (labels.getLast h) = true →
      isRemovable labels label = false) := by
  have h1 : isRemovable labels label =
      (label.editable && !(sameRef label (labels.getLast h))) := by
    unfold isRemovable
    rw [List.getLast?_eq_getLast labels h]
  refine ⟨h1, fun hs => ?_⟩
  rw [h1, hs]
  simp

theorem isRemovable_witness :
    isRemovable [⟨0, "a", "", true⟩, ⟨1, "b", "", true⟩] ⟨1, "b", "", true⟩ =
      false :=
  (isRemovable_spec [⟨0, "a", "", true⟩, ⟨1, "b", "", true⟩] ⟨1, "b", "", true⟩
    (by simp)).2 (by decide)

/-- C7: `deleteLabel` removes exactly the first occurrence of the entry
(by reference identity) from the list, and leaves the list unchanged when
the entry does not occur. -/
theorem deleteLabel_spec (labels : List DeployLabel) (label : DeployLabel) :
    deleteLabel labels label = labels.eraseP (fun l => sameRef l label) ∧
    ((∀ l ∈ labels, sameRef l label = false) →
      deleteLabel labels label = labels) := by
  refine ⟨deleteLabel_eq_eraseP labels label, fun hall => ?_⟩
  unfold deleteLabel
  rw [List.findIdx?_eq_none_iff.mpr hall]

theorem deleteLabel_witness :
    deleteLabel [⟨0, "a", "", true⟩] ⟨1, "b", "", true⟩ = [⟨0, "a", "", true⟩] :=
  (deleteLabel_spec [⟨0, "a", "", true⟩] ⟨1, "b", "", true⟩).2 (by decide)

/-- C8: for every key containing no "/", the `prefixPattern` flag is true
(the placeholder "valid-pattern" is tested instead and passes). -/
theorem prefixPattern_no_slash_spec (labels : List DeployLabel)
    (label : DeployLabel) (h : label.key.data.contains '/' = false) :
    (computeFlags labels label).prefixPattern = true := by
  have hp : isPrefixedOf label.key = false := by
    rw [isPrefixedOf_eq, h]
    rfl
  show matchesKeyPrefixPattern_ label.key (isPrefixedOf label.key)
      (if isPrefixedOf label.key then jsIndexOfSlash label.key else -1) = true
  rw [if_neg (by simp [hp])]
  simp only [matchesKeyPrefixPattern_]
  rw [if_neg (by simp [hp])]
  decide

theorem prefixPattern_no_slash_witness :
    ("abc".data.contains '/') = false ∧
    (computeFlags [] ⟨0, "abc", "", true⟩).prefixPattern = true :=
  ⟨by decide, prefixPattern_no_slash_spec [] ⟨0, "abc", "", true⟩ (by decide)⟩

set_option maxRecDepth 40000 in
/-- C9 counterexample: the claim is false as stated.  For a key whose
first character is a newline, followed by 253 'a's, "/" and "x", the
prefix substring in the claim's sense (before the first "/") has 254
characters, so the claim demands `prefixLength` false; but the key fails
the `PrefixPattern` test (the dot matches no newline), the code treats it
as unprefixed and length-checks the empty string, reporting true. -/
theorem prefixLength_newline_cex :
    (claimPrefixOf
      (String.mk ('\n' :: (List.replicate 253 'a' ++ ['/', 'x'])))).length = 254 ∧
    (computeFlags []
      ⟨0, String.mk ('\n' :: (List.replicate 253 'a' ++ ['/', 'x'])), "",
        true⟩).prefixLength = true := by
  exact ⟨by decide, by decide⟩

set_option maxRecDepth 40000 in
/-- C9 (amended): `prefixLength` is true iff the prefix substring the code
actually checks — the part before the first "/" when the key contains a
"/" and no line terminator, otherwise the empty string — has length at
most 253, and `nameLength` is true iff the corresponding name substring
has length at most 63.  The boundaries are exact: a 253-character prefix
passes and a 254-character one fails; a 63-character name passes and a
64-character one fails. -/
theorem length_flags_spec :
    (∀ (labels : List DeployLabel) (label : DeployLabel),
      (computeFlags labels label).prefixLength =
        decide ((codePrefixOf label.key).length ≤ 253) ∧
      (computeFlags labels label).nameLength =
        decide ((codeNameOf label.key).length ≤ 63)) ∧
    (computeFlags []
      ⟨0, String.mk (List.replicate 253 'a' ++ ['/', 'x']), "",
        true⟩).prefixLength = true ∧
    (computeFlags []
      ⟨0, String.mk (List.replicate 254 'a' ++ ['/', 'x']), "",
        true⟩).prefixLength = false ∧
    (computeFlags []
      ⟨0, String.mk ('p' :: '/' :: List.replicate 63 'n'), "",
        true⟩).nameLength = true ∧
    (computeFlags []
      ⟨0, String.mk ('p' :: '/' :: List.replicate 64 'n'), "",
        true⟩).nameLength = false := by
  refine ⟨fun labels label =>
    ⟨prefixLength_flag_eq labels label, nameLength_flag_eq labels label⟩,
    by decide, by decide, by decide, by decide⟩

/-- C10: on a non-empty list, `check` (with or without a form handle)
never removes, reorders or rewrites existing entries: the resulting list
is either the original list or the original list with one entry appended
at the end. -/
theorem check_frame_spec (labels : List DeployLabel) (label : DeployLabel)
    (formDefined : Bool) (h : labels ≠ []) :
    ∃ l2 v, check labels label formDefined = some (l2, v) ∧
      (l2 = labels ∨ ∃ b, l2 = labels ++ [b]) := by
  have ha := addIfNeeded_of_ne_nil labels h
  by_cases hf : isFilled_ (labels.getLast h) = true
  · rw [if_pos hf] at ha
    refine ⟨addNewLabel_ labels,
      validateKey_ (addNewLabel_ labels) label formDefined, ?_,
      Or.inr ⟨newDeployLabel (freshRef labels), rfl⟩⟩
    unfold check
    rw [ha]
  · rw [if_neg hf] at ha
    refine ⟨labels, validateKey_ labels label formDefined, ?_, Or.inl rfl⟩
    unfold check
    rw [ha]

theorem check_frame_witness :
    ∃ l2 v, check [⟨0, "k", "v", true⟩] ⟨0, "k", "v", true⟩ false =
        some (l2, v) ∧
      (l2 = [⟨0, "k", "v", true⟩] ∨
        ∃ b, l2 = ([⟨0, "k", "v", true⟩] : List DeployLabel) ++ [b]) :=
  check_frame_spec [⟨0, "k", "v", true⟩] ⟨0, "k", "v", true⟩ false (by simp)
